import Mathlib

/-!
Verification of the CIGAR decoding and windowing core of
`scripts/cigar_inspector.py` (Scrooge repository).

The embedding models:
* the tokenizer `re.finditer(r"(\d+)([=XID])", cigar)` as `findRuns`
  (a left-to-right scan that extracts non-overlapping occurrences of
  a digit run followed by an edit symbol, silently skipping text that
  does not match the pattern),
* `cigar_to_coords` and `cigar_to_match_coords` as fallible functions
  returning `Except`, mirroring the Python `raise ValueError` branch,
* the window-anchor loop of `plot_genasm_windows` as `window_starts`,
  and the clipped window rectangle as `window_polygon`.

The grammar of a fully well-formed CIGAR string, `(\d+[=XID])*`, is
decided by `parseRuns` (returns the run list exactly when the whole
string matches the grammar).
-/

namespace CigarInspector

/-- The run-type symbols accepted by the regex character class `[=XID]`. -/
def isEditSym (c : Char) : Bool :=
  c == '=' || c == 'X' || c == 'I' || c == 'D'

/-- Numeric value of one ASCII digit character. -/
def charVal (c : Char) : Nat :=
  c.toNat - '0'.toNat

/-- State machine equivalent of `re.finditer(r"(\d+)([=XID])", s)`:
the state holds the accumulated value of the digit group currently being
scanned (`some n`) or `none` when not inside a digit group.  A run is
emitted when a digit group is immediately followed by an edit symbol;
all other text is skipped, exactly as `finditer` skips positions where
the pattern does not match. -/
def findRunsAux : Option Nat → List Char → List (Nat × Char)
  | _, [] => []
  | none, c :: rest =>
    if c.isDigit then findRunsAux (some (charVal c)) rest
    else findRunsAux none rest
  | some n, c :: rest =>
    if c.isDigit then findRunsAux (some (n * 10 + charVal c)) rest
    else if isEditSym c then (n, c) :: findRunsAux none rest
    else findRunsAux none rest

/-- The list of `(count, symbol)` runs the regex tokenizer extracts from
a cigar string. -/
def findRuns (s : String) : List (Nat × Char) :=
  findRunsAux none s.data

/-- Recognizer for the full grammar `(\d+[=XID])*`: returns the run list
exactly when the whole string is a concatenation of digit-run/symbol
pairs, and `none` otherwise.  (Since `[=XID]` contains no digit, every
`\d+` group of a full match necessarily extends to the next non-digit
character, so scanning maximal digit runs is faithful to the regex.) -/
def parseRunsAux : Option Nat → List Char → Option (List (Nat × Char))
  | none, [] => some []
  | some _, [] => none
  | none, c :: rest =>
    if c.isDigit then parseRunsAux (some (charVal c)) rest else none
  | some n, c :: rest =>
    if c.isDigit then parseRunsAux (some (n * 10 + charVal c)) rest
    else if isEditSym c then
      match parseRunsAux none rest with
      | none => none
      | some rs => some ((n, c) :: rs)
    else none

/-- A string matches the grammar `(\d+[=XID])*` iff `parseRuns` returns
its run decomposition. -/
def parseRuns (s : String) : Option (List (Nat × Char)) :=
  parseRunsAux none s.data

/-- One iteration of the decoder loop body: the `if/elif/else` chain of
`cigar_to_coords` updating the `(i, j)` cursor, with the `else` branch
raising `ValueError`. -/
def stepRun (ij : Nat × Nat) (r : Nat × Char) : Except String (Nat × Nat) :=
  match r.2 with
  | '=' => Except.ok (ij.1 + r.1, ij.2 + r.1)
  | 'X' => Except.ok (ij.1 + r.1, ij.2 + r.1)
  | 'I' => Except.ok (ij.1 + r.1, ij.2)
  | 'D' => Except.ok (ij.1, ij.2 + r.1)
  | _ => Except.error ("cigar string has unknown edit type")

/-- Total version of `stepRun`, used to describe the successful runs
(the behaviour on the four recognized symbols). -/
def applyRun (ij : Nat × Nat) (r : Nat × Char) : Nat × Nat :=
  match r.2 with
  | '=' => (ij.1 + r.1, ij.2 + r.1)
  | 'X' => (ij.1 + r.1, ij.2 + r.1)
  | 'I' => (ij.1 + r.1, ij.2)
  | 'D' => (ij.1, ij.2 + r.1)
  | _ => (ij.1, ij.2 + r.1)

/-- The vertex-accumulating loop of `cigar_to_coords` over an already
tokenized run list: appends the cursor value after each run, raising on
an unknown edit type (in which case the partial list is discarded, as
an uncaught Python exception discards `res`). -/
def coordsFrom (ij : Nat × Nat) : List (Nat × Char) → Except String (List (Nat × Nat))
  | [] => Except.ok []
  | r :: rest =>
    match stepRun ij r with
    | Except.error e => Except.error e
    | Except.ok ij2 =>
      match coordsFrom ij2 rest with
      | Except.error e => Except.error e
      | Except.ok l => Except.ok (ij2 :: l)

/-- `cigar_to_coords`: the initial `(0, 0)` vertex followed by the
cursor value after each tokenized run. -/
def cigar_to_coords (cigar : String) : Except String (List (Nat × Nat)) :=
  match coordsFrom (0, 0) (findRuns cigar) with
  | Except.error e => Except.error e
  | Except.ok l => Except.ok ((0, 0) :: l)

/-- The loop of `cigar_to_match_coords` over a tokenized run list:
records `(before, after)` cursor pairs for `=` runs only. -/
def matchCoordsFrom (ij : Nat × Nat) :
    List (Nat × Char) → Except String (List ((Nat × Nat) × (Nat × Nat)))
  | [] => Except.ok []
  | r :: rest =>
    match stepRun ij r with
    | Except.error e => Except.error e
    | Except.ok ij2 =>
      match matchCoordsFrom ij2 rest with
      | Except.error e => Except.error e
      | Except.ok l => Except.ok (if r.2 = '=' then (ij, ij2) :: l else l)

/-- `cigar_to_match_coords`: one `(before, after)` segment per `=` run. -/
def cigar_to_match_coords (cigar : String) :
    Except String (List ((Nat × Nat) × (Nat × Nat))) :=
  matchCoordsFrom (0, 0) (findRuns cigar)

/-- Pure description of the vertex list produced from a run list all of
whose symbols are recognized. -/
def pathFrom (ij : Nat × Nat) : List (Nat × Char) → List (Nat × Nat)
  | [] => []
  | r :: rest => applyRun ij r :: pathFrom (applyRun ij r) rest

/-- Pure description of the match segments produced from a run list all
of whose symbols are recognized. -/
def matchSegsFrom (ij : Nat × Nat) : List (Nat × Char) → List ((Nat × Nat) × (Nat × Nat))
  | [] => []
  | r :: rest =>
    if r.2 = '=' then (ij, applyRun ij r) :: matchSegsFrom (applyRun ij r) rest
    else matchSegsFrom (applyRun ij r) rest

/-- Total read length consumed by a run list: the counts of `=`, `X`
and `I` runs. -/
def readConsumed : List (Nat × Char) → Nat
  | [] => 0
  | r :: rest => (if r.2 = '=' ∨ r.2 = 'X' ∨ r.2 = 'I' then r.1 else 0) + readConsumed rest

/-- Total reference length consumed by a run list: the counts of `=`,
`X` and `D` runs. -/
def refConsumed : List (Nat × Char) → Nat
  | [] => 0
  | r :: rest => (if r.2 = '=' ∨ r.2 = 'X' ∨ r.2 = 'D' then r.1 else 0) + refConsumed rest

/-- The anchor loop of `plot_genasm_windows`: `window_starts` begins as
`[(0, 0)]` and a path vertex is appended whenever one of its coordinates
exceeds the corresponding coordinate of the last appended anchor plus
`W - O` (Python `window_starts[-1]` is the last element, modelled with
`getLastD`; the accumulator is never empty, so the default is never
used). -/
def plotWindowsLoop (W O : Int) (acc : List (Nat × Nat)) : List (Nat × Nat) → List (Nat × Nat)
  | [] => acc
  | v :: rest =>
    if (v.1 : Int) > ((acc.getLastD (0, 0)).1 : Int) + W - O ∨
        (v.2 : Int) > ((acc.getLastD (0, 0)).2 : Int) + W - O then
      plotWindowsLoop W O (acc ++ [v]) rest
    else
      plotWindowsLoop W O acc rest

/-- The `window_starts` list computed by `plot_genasm_windows` for a
decoded alignment path. -/
def window_starts (path : List (Nat × Nat)) (W O : Int) : List (Nat × Nat) :=
  plotWindowsLoop W O [(0, 0)] path

/-- Modelled from the spec wording of the window partitioner (for the
refinement stated in C6): maintain the last anchor, scan the vertices in
order, and emit a vertex as a new anchor exactly when its read
coordinate exceeds `last.read + (W - O)` or its reference coordinate
exceeds `last.reference + (W - O)`. -/
def anchorsSpecLoop (W O : Int) (last : Nat × Nat) : List (Nat × Nat) → List (Nat × Nat)
  | [] => []
  | v :: rest =>
    if (v.1 : Int) > (last.1 : Int) + W - O ∨ (v.2 : Int) > (last.2 : Int) + W - O then
      v :: anchorsSpecLoop W O v rest
    else
      anchorsSpecLoop W O last rest

/-- Modelled from the spec wording: the anchor list starts with `(0, 0)`
followed by the vertices selected by the trigger rule. -/
def anchorsSpec (path : List (Nat × Nat)) (W O : Int) : List (Nat × Nat) :=
  (0, 0) :: anchorsSpecLoop W O (0, 0) path

/-- The clipped far corner of the window at a given anchor:
`(min(ws[0] + W, len(read)), min(ws[1] + W, len(reference)))`. -/
def window_end (ws : Nat × Nat) (W : Int) (readLen refLen : Nat) : Int × Int :=
  (min ((ws.1 : Int) + W) (readLen : Int), min ((ws.2 : Int) + W) (refLen : Int))

/-- The `window_polygon` drawn for one anchor: the closed rectangle from
the anchor to the clipped window end. -/
def window_polygon (ws : Nat × Nat) (W : Int) (readLen refLen : Nat) : List (Int × Int) :=
  [((ws.1 : Int), (ws.2 : Int)),
   ((ws.1 : Int), (window_end ws W readLen refLen).2),
   window_end ws W readLen refLen,
   ((window_end ws W readLen refLen).1, (ws.2 : Int)),
   ((ws.1 : Int), (ws.2 : Int))]

/-! ### Tokenizer lemmas -/

/-- On a string that fully matches the grammar, the tokenizer extracts
exactly the grammar's run decomposition. -/
theorem parseRunsAux_findRunsAux (l : List Char) :
    ∀ (st : Option Nat) (rs : List (Nat × Char)),
    parseRunsAux st l = some rs → findRunsAux st l = rs := by
  induction l with
  | nil =>
    intro st rs h
    cases st with
    | none =>
      simp only [parseRunsAux, Option.some.injEq] at h
      subst h
      rfl
    | some n => simp [parseRunsAux] at h
  | cons c rest ih =>
    intro st rs h
    cases st with
    | none =>
      by_cases hd : c.isDigit
      · simp only [parseRunsAux, hd, if_true] at h
        simp only [findRunsAux, hd, if_true]
        exact ih _ _ h
      · simp [parseRunsAux, hd] at h
    | some n =>
      by_cases hd : c.isDigit
      · simp only [parseRunsAux, hd, if_true] at h
        simp only [findRunsAux, hd, if_true]
        exact ih _ _ h
      · by_cases he : isEditSym c
        · cases hrec : parseRunsAux none rest with
          | none => simp [parseRunsAux, hd, he, hrec] at h
          | some rs0 =>
            simp [parseRunsAux, hd, he, hrec] at h
            subst h
            simp [findRunsAux, hd, he]
            exact ih _ _ hrec
        · simp [parseRunsAux, hd, he] at h

/-- Every run the tokenizer emits carries a recognized edit symbol. -/
theorem findRunsAux_valid (l : List Char) :
    ∀ (st : Option Nat) (r : Nat × Char),
    r ∈ findRunsAux st l → isEditSym r.2 = true := by
  induction l with
  | nil => intro st r h; cases st <;> simp [findRunsAux] at h
  | cons c rest ih =>
    intro st r h
    cases st with
    | none =>
      by_cases hd : c.isDigit
      · simp only [findRunsAux, hd, if_true] at h
        exact ih _ _ h
      · simp only [findRunsAux, hd, if_false] at h
        exact ih _ _ h
    | some n =>
      by_cases hd : c.isDigit
      · simp only [findRunsAux, hd, if_true] at h
        exact ih _ _ h
      · by_cases he : isEditSym c
        · simp only [findRunsAux, hd, Bool.false_eq_true, if_false, he, if_true,
            List.mem_cons] at h
          rcases h with hr | hr
          · rw [hr]; exact he
          · exact ih _ _ hr
        · simp only [findRunsAux, hd, Bool.false_eq_true, if_false, he] at h
          exact ih _ _ h

theorem findRuns_valid (s : String) :
    ∀ r ∈ findRuns s, isEditSym r.2 = true :=
  fun r hr => findRunsAux_valid s.data none r hr

theorem parseRuns_findRuns {s : String} {rs : List (Nat × Char)}
    (h : parseRuns s = some rs) : findRuns s = rs :=
  parseRunsAux_findRunsAux s.data none rs h

/-! ### Decoder loop lemmas -/

/-- On recognized symbols the fallible step agrees with `applyRun`. -/
theorem stepRun_eq (ij : Nat × Nat) (r : Nat × Char) (h : isEditSym r.2 = true) :
    stepRun ij r = Except.ok (applyRun ij r) := by
  rcases r with ⟨n, c⟩
  simp only [isEditSym, Bool.or_eq_true, beq_iff_eq] at h
  rcases h with ((h | h) | h) | h <;> subst h <;> rfl

/-- On a run list with only recognized symbols, the fallible vertex loop
succeeds and produces `pathFrom`. -/
theorem coordsFrom_eq (rs : List (Nat × Char)) :
    ∀ ij : Nat × Nat, (∀ r ∈ rs, isEditSym r.2 = true) →
    coordsFrom ij rs = Except.ok (pathFrom ij rs) := by
  induction rs with
  | nil => intro ij _; rfl
  | cons r rest ih =>
    intro ij h
    have hr := h r (List.mem_cons_self r rest)
    have hrest : ∀ x ∈ rest, isEditSym x.2 = true :=
      fun x hx => h x (List.mem_cons_of_mem _ hx)
    simp only [coordsFrom, stepRun_eq ij r hr, ih (applyRun ij r) hrest, pathFrom]

/-- On a run list with only recognized symbols, the fallible segment
loop succeeds and produces `matchSegsFrom`. -/
theorem matchCoordsFrom_eq (rs : List (Nat × Char)) :
    ∀ ij : Nat × Nat, (∀ r ∈ rs, isEditSym r.2 = true) →
    matchCoordsFrom ij rs = Except.ok (matchSegsFrom ij rs) := by
  induction rs with
  | nil => intro ij _; rfl
  | cons r rest ih =>
    intro ij h
    have hr := h r (List.mem_cons_self r rest)
    have hrest : ∀ x ∈ rest, isEditSym x.2 = true :=
      fun x hx => h x (List.mem_cons_of_mem _ hx)
    simp only [matchCoordsFrom, stepRun_eq ij r hr, ih (applyRun ij r) hrest, matchSegsFrom]

/-- Canonical successful form of `cigar_to_coords`. -/
theorem cigar_to_coords_eq (s : String) :
    cigar_to_coords s = Except.ok ((0, 0) :: pathFrom (0, 0) (findRuns s)) := by
  unfold cigar_to_coords
  rw [coordsFrom_eq (findRuns s) (0, 0) (findRuns_valid s)]

/-- Canonical successful form of `cigar_to_match_coords`. -/
theorem cigar_to_match_coords_eq (s : String) :
    cigar_to_match_coords s = Except.ok (matchSegsFrom (0, 0) (findRuns s)) := by
  unfold cigar_to_match_coords
  rw [matchCoordsFrom_eq (findRuns s) (0, 0) (findRuns_valid s)]

theorem pathFrom_length (rs : List (Nat × Char)) :
    ∀ ij : Nat × Nat, (pathFrom ij rs).length = rs.length := by
  induction rs with
  | nil => intro ij; rfl
  | cons r rest ih => intro ij; simp [pathFrom, ih]

/-! ### Per-symbol reduction helpers (all definitional) -/

theorem pathFrom_cons_match (ij : Nat × Nat) (n : Nat) (rest : List (Nat × Char)) :
    pathFrom ij ((n, '=') :: rest) =
      (ij.1 + n, ij.2 + n) :: pathFrom (ij.1 + n, ij.2 + n) rest := rfl

theorem pathFrom_cons_mismatch (ij : Nat × Nat) (n : Nat) (rest : List (Nat × Char)) :
    pathFrom ij ((n, 'X') :: rest) =
      (ij.1 + n, ij.2 + n) :: pathFrom (ij.1 + n, ij.2 + n) rest := rfl

theorem pathFrom_cons_ins (ij : Nat × Nat) (n : Nat) (rest : List (Nat × Char)) :
    pathFrom ij ((n, 'I') :: rest) =
      (ij.1 + n, ij.2) :: pathFrom (ij.1 + n, ij.2) rest := rfl

theorem pathFrom_cons_del (ij : Nat × Nat) (n : Nat) (rest : List (Nat × Char)) :
    pathFrom ij ((n, 'D') :: rest) =
      (ij.1, ij.2 + n) :: pathFrom (ij.1, ij.2 + n) rest := rfl

theorem readConsumed_cons_match (n : Nat) (rest : List (Nat × Char)) :
    readConsumed ((n, '=') :: rest) = n + readConsumed rest := rfl

theorem readConsumed_cons_mismatch (n : Nat) (rest : List (Nat × Char)) :
    readConsumed ((n, 'X') :: rest) = n + readConsumed rest := rfl

theorem readConsumed_cons_ins (n : Nat) (rest : List (Nat × Char)) :
    readConsumed ((n, 'I') :: rest) = n + readConsumed rest := rfl

theorem readConsumed_cons_del (n : Nat) (rest : List (Nat × Char)) :
    readConsumed ((n, 'D') :: rest) = readConsumed rest := by
  have h : readConsumed ((n, 'D') :: rest) = 0 + readConsumed rest := rfl
  rw [h, Nat.zero_add]

theorem refConsumed_cons_match (n : Nat) (rest : List (Nat × Char)) :
    refConsumed ((n, '=') :: rest) = n + refConsumed rest := rfl

theorem refConsumed_cons_mismatch (n : Nat) (rest : List (Nat × Char)) :
    refConsumed ((n, 'X') :: rest) = n + refConsumed rest := rfl

theorem refConsumed_cons_ins (n : Nat) (rest : List (Nat × Char)) :
    refConsumed ((n, 'I') :: rest) = refConsumed rest := by
  have h : refConsumed ((n, 'I') :: rest) = 0 + refConsumed rest := rfl
  rw [h, Nat.zero_add]

theorem refConsumed_cons_del (n : Nat) (rest : List (Nat × Char)) :
    refConsumed ((n, 'D') :: rest) = n + refConsumed rest := rfl

/-! ### Path shape lemmas -/

/-- The cursor never decreases in either coordinate in one step. -/
theorem applyRun_mono (ij : Nat × Nat) (r : Nat × Char) :
    ij.1 ≤ (applyRun ij r).1 ∧ ij.2 ≤ (applyRun ij r).2 := by
  unfold applyRun
  split <;> exact ⟨by omega, by omega⟩

/-- The full vertex list is non-decreasing in both coordinates. -/
theorem pathFrom_chain (rs : List (Nat × Char)) :
    ∀ ij : Nat × Nat,
    List.Chain' (fun a b => a.1 ≤ b.1 ∧ a.2 ≤ b.2) (ij :: pathFrom ij rs) := by
  induction rs with
  | nil => intro ij; simp [pathFrom]
  | cons r rest ih =>
    intro ij
    rw [show pathFrom ij (r :: rest) = applyRun ij r :: pathFrom (applyRun ij r) rest from rfl]
    exact List.chain'_cons.mpr ⟨applyRun_mono ij r, ih (applyRun ij r)⟩

/-- The last vertex records the total consumed read and reference
lengths. -/
theorem pathFrom_getLast (rs : List (Nat × Char)) :
    ∀ ij : Nat × Nat, (∀ r ∈ rs, isEditSym r.2 = true) →
    (ij :: pathFrom ij rs).getLast? =
      some (ij.1 + readConsumed rs, ij.2 + refConsumed rs) := by
  induction rs with
  | nil => intro ij _; rfl
  | cons r rest ih =>
    intro ij h
    have hr := h r (List.mem_cons_self r rest)
    have hrest : ∀ x ∈ rest, isEditSym x.2 = true :=
      fun x hx => h x (List.mem_cons_of_mem _ hx)
    rcases r with ⟨n, c⟩
    simp only [isEditSym, Bool.or_eq_true, beq_iff_eq] at hr
    rcases hr with ((hc | hc) | hc) | hc <;> subst hc
    · rw [pathFrom_cons_match, List.getLast?_cons_cons, ih _ hrest,
        readConsumed_cons_match, refConsumed_cons_match]
      simp [Nat.add_assoc]
    · rw [pathFrom_cons_mismatch, List.getLast?_cons_cons, ih _ hrest,
        readConsumed_cons_mismatch, refConsumed_cons_mismatch]
      simp [Nat.add_assoc]
    · rw [pathFrom_cons_ins, List.getLast?_cons_cons, ih _ hrest,
        readConsumed_cons_ins, refConsumed_cons_ins]
      simp [Nat.add_assoc]
    · rw [pathFrom_cons_del, List.getLast?_cons_cons, ih _ hrest,
        readConsumed_cons_del, refConsumed_cons_del]
      simp [Nat.add_assoc]

/-! ### Match segment lemmas -/

theorem matchSegs_cons_match (ij : Nat × Nat) (n : Nat) (rest : List (Nat × Char)) :
    matchSegsFrom ij ((n, '=') :: rest) =
      (ij, (ij.1 + n, ij.2 + n)) :: matchSegsFrom (ij.1 + n, ij.2 + n) rest := rfl

theorem matchSegs_cons_mismatch (ij : Nat × Nat) (n : Nat) (rest : List (Nat × Char)) :
    matchSegsFrom ij ((n, 'X') :: rest) = matchSegsFrom (ij.1 + n, ij.2 + n) rest := rfl

theorem matchSegs_cons_ins (ij : Nat × Nat) (n : Nat) (rest : List (Nat × Char)) :
    matchSegsFrom ij ((n, 'I') :: rest) = matchSegsFrom (ij.1 + n, ij.2) rest := rfl

theorem matchSegs_cons_del (ij : Nat × Nat) (n : Nat) (rest : List (Nat × Char)) :
    matchSegsFrom ij ((n, 'D') :: rest) = matchSegsFrom (ij.1, ij.2 + n) rest := rfl

theorem filter_match_cons_match (n : Nat) (rest : List (Nat × Char)) :
    ((n, '=') :: rest).filter (fun r => r.2 = '=') =
      (n, '=') :: rest.filter (fun r => r.2 = '=') := rfl

theorem filter_match_cons_mismatch (n : Nat) (rest : List (Nat × Char)) :
    ((n, 'X') :: rest).filter (fun r => r.2 = '=') = rest.filter (fun r => r.2 = '=') := rfl

theorem filter_match_cons_ins (n : Nat) (rest : List (Nat × Char)) :
    ((n, 'I') :: rest).filter (fun r => r.2 = '=') = rest.filter (fun r => r.2 = '=') := rfl

theorem filter_match_cons_del (n : Nat) (rest : List (Nat × Char)) :
    ((n, 'D') :: rest).filter (fun r => r.2 = '=') = rest.filter (fun r => r.2 = '=') := rfl

/-- Per-coordinate lengths of the match segments are exactly the counts
of the `=` runs, in order. -/
theorem matchSegs_map_filter (rs : List (Nat × Char)) :
    ∀ ij : Nat × Nat, (∀ r ∈ rs, isEditSym r.2 = true) →
    (matchSegsFrom ij rs).map (fun seg => (seg.2.1 - seg.1.1, seg.2.2 - seg.1.2)) =
      (rs.filter (fun r => r.2 = '=')).map (fun r => (r.1, r.1)) := by
  induction rs with
  | nil => intro ij _; rfl
  | cons r rest ih =>
    intro ij h
    have hr := h r (List.mem_cons_self r rest)
    have hrest : ∀ x ∈ rest, isEditSym x.2 = true :=
      fun x hx => h x (List.mem_cons_of_mem _ hx)
    rcases r with ⟨n, c⟩
    simp only [isEditSym, Bool.or_eq_true, beq_iff_eq] at hr
    rcases hr with ((hc | hc) | hc) | hc <;> subst hc
    · rw [matchSegs_cons_match, filter_match_cons_match, List.map_cons, List.map_cons,
        ih _ hrest]
      simp [Nat.add_sub_cancel_left]
    · rw [matchSegs_cons_mismatch, filter_match_cons_mismatch]
      exact ih _ hrest
    · rw [matchSegs_cons_ins, filter_match_cons_ins]
      exact ih _ hrest
    · rw [matchSegs_cons_del, filter_match_cons_del]
      exact ih _ hrest

/-- Every match segment is a pair of consecutive path vertices: the
segments are the consecutive-vertex pairs of the `=`-runs, in order. -/
theorem matchSegs_zip (rs : List (Nat × Char)) :
    ∀ ij : Nat × Nat,
    matchSegsFrom ij rs =
      (((ij :: pathFrom ij rs).zip (pathFrom ij rs)).zip rs).filterMap
        (fun x => if x.2.2 = '=' then some x.1 else none) := by
  induction rs with
  | nil => intro ij; rfl
  | cons r rest ih =>
    intro ij
    by_cases hc : r.2 = '='
    · simp [matchSegsFrom, pathFrom, List.zip_cons_cons, List.filterMap_cons, hc, ih]
    · simp [matchSegsFrom, pathFrom, List.zip_cons_cons, List.filterMap_cons, hc, ih]

/-! ### Window partitioner lemmas -/

/-- The accumulator form of the code's anchor loop refines the
last-anchor form of the spec's description. -/
theorem plotWindowsLoop_eq (l : List (Nat × Nat)) :
    ∀ (W O : Int) (acc : List (Nat × Nat)) (v0 : Nat × Nat),
    plotWindowsLoop W O (acc ++ [v0]) l = (acc ++ [v0]) ++ anchorsSpecLoop W O v0 l := by
  induction l with
  | nil => intro W O acc v0; simp [plotWindowsLoop, anchorsSpecLoop]
  | cons v rest ih =>
    intro W O acc v0
    have hlast : (acc ++ [v0]).getLastD (0, 0) = v0 := by
      simp [List.getLastD_eq_getLast?, List.getLast?_concat]
    simp only [plotWindowsLoop, anchorsSpecLoop, hlast]
    by_cases hcond : (v.1 : Int) > (v0.1 : Int) + W - O ∨ (v.2 : Int) > (v0.2 : Int) + W - O
    · rw [if_pos hcond, if_pos hcond, show (acc ++ [v0]) ++ [v] = (acc ++ [v0]) ++ [v] from rfl]
      rw [ih W O (acc ++ [v0]) v]
      simp
    · rw [if_neg hcond, if_neg hcond]
      exact ih W O acc v0

/-- The code's `window_starts` equals the spec-worded anchor
computation. -/
theorem window_starts_eq_anchorsSpec (path : List (Nat × Nat)) (W O : Int) :
    window_starts path W O = anchorsSpec path W O := by
  have h := plotWindowsLoop_eq path W O [] (0, 0)
  simpa [window_starts, anchorsSpec] using h

/-- When `W - O` is non-negative, consecutive anchors are distinct. -/
theorem anchorsSpecLoop_chain (l : List (Nat × Nat)) :
    ∀ (W O : Int), 0 ≤ W - O → ∀ last : Nat × Nat,
    List.Chain' (fun a b => a ≠ b) (last :: anchorsSpecLoop W O last l) := by
  induction l with
  | nil => intro W O _ last; simp [anchorsSpecLoop]
  | cons v rest ih =>
    intro W O h last
    simp only [anchorsSpecLoop]
    by_cases hcond : (v.1 : Int) > (last.1 : Int) + W - O ∨ (v.2 : Int) > (last.2 : Int) + W - O
    · rw [if_pos hcond]
      refine List.chain'_cons.mpr ⟨?_, ih W O h v⟩
      intro he
      rw [he] at hcond
      rcases hcond with hc | hc <;> omega
    · rw [if_neg hcond]
      exact ih W O h last

/-- The anchor loop emits at most one anchor per scanned vertex. -/
theorem anchorsSpecLoop_length (l : List (Nat × Nat)) :
    ∀ (W O : Int) (last : Nat × Nat),
    (anchorsSpecLoop W O last l).length ≤ l.length := by
  induction l with
  | nil => intro W O last; simp [anchorsSpecLoop]
  | cons v rest ih =>
    intro W O last
    simp only [anchorsSpecLoop]
    by_cases hcond : (v.1 : Int) > (last.1 : Int) + W - O ∨ (v.2 : Int) > (last.2 : Int) + W - O
    · rw [if_pos hcond]
      have := ih W O v
      simp only [List.length_cons]
      omega
    · rw [if_neg hcond]
      have := ih W O last
      simp only [List.length_cons]
      omega

/-! ### Claim theorems -/

/-- C1: the claim says both decoders fail immediately with a descriptive
error on any input containing a non-conforming run (e.g. "3=2Z") and
return no partial result.  The code does the opposite: the regex
tokenizer silently skips non-matching text, so the `raise ValueError`
branch is unreachable and both decoders succeed on every input,
returning the decode of whatever runs the tokenizer finds.  This
theorem evaluates the code at the failing input "3=2Z" (partial result,
no error) and shows the decoders never fail on any string. -/
theorem c1_decoders_skip_malformed :
    cigar_to_coords ("3=2Z") = Except.ok [(0, 0), (3, 3)] ∧
    cigar_to_match_coords ("3=2Z") = Except.ok [((0, 0), (3, 3))] ∧
    (∀ s : String, ∃ l, cigar_to_coords s = Except.ok l) ∧
    (∀ s : String, ∃ segs, cigar_to_match_coords s = Except.ok segs) :=
  ⟨rfl, rfl, fun s => ⟨_, cigar_to_coords_eq s⟩, fun s => ⟨_, cigar_to_match_coords_eq s⟩⟩

/-- C2: for every string matching the grammar `(\d+[=XID])*` with run
list `rs`, `cigar_to_coords` returns exactly `rs.length + 1` coordinate
pairs and the first is `(0, 0)`. -/
theorem c2_path_shape (s : String) (rs : List (Nat × Char))
    (h : parseRuns s = some rs) :
    ∃ l, cigar_to_coords s = Except.ok l ∧
      l.length = rs.length + 1 ∧ l.head? = some (0, 0) := by
  refine ⟨(0, 0) :: pathFrom (0, 0) rs, ?_, ?_, rfl⟩
  · rw [cigar_to_coords_eq s, parseRuns_findRuns h]
  · simp [pathFrom_length]

theorem c2_witness :
    parseRuns ("3=2X1I4=") = some [(3, '='), (2, 'X'), (1, 'I'), (4, '=')] ∧
    ∃ l, cigar_to_coords ("3=2X1I4=") = Except.ok l ∧
      l.length = 5 ∧ l.head? = some (0, 0) :=
  ⟨rfl, c2_path_shape ("3=2X1I4=") [(3, '='), (2, 'X'), (1, 'I'), (4, '=')] rfl⟩

/-- C3: for every valid CIGAR string, the final vertex equals the pair
(total count of `=`, `X` and `I` runs, total count of `=`, `X` and `D`
runs), i.e. (read length consumed, reference length consumed). -/
theorem c3_final_vertex (s : String) (rs : List (Nat × Char))
    (h : parseRuns s = some rs) :
    ∃ l, cigar_to_coords s = Except.ok l ∧
      l.getLast? = some (readConsumed rs, refConsumed rs) := by
  have hv : ∀ r ∈ rs, isEditSym r.2 = true := by
    rw [← parseRuns_findRuns h]
    exact findRuns_valid s
  refine ⟨(0, 0) :: pathFrom (0, 0) rs, ?_, ?_⟩
  · rw [cigar_to_coords_eq s, parseRuns_findRuns h]
  · have hl := pathFrom_getLast rs (0, 0) hv
    simpa using hl

theorem c3_witness :
    parseRuns ("2D3=") = some [(2, 'D'), (3, '=')] ∧
    ∃ l, cigar_to_coords ("2D3=") = Except.ok l ∧ l.getLast? = some (3, 5) :=
  ⟨rfl, c3_final_vertex ("2D3=") [(2, 'D'), (3, '=')] rfl⟩

/-- C4: for every valid CIGAR string, the returned path is monotonically
non-decreasing in both coordinates between consecutive vertices. -/
theorem c4_monotone (s : String) (rs : List (Nat × Char))
    (h : parseRuns s = some rs) :
    ∃ l, cigar_to_coords s = Except.ok l ∧
      List.Chain' (fun a b => a.1 ≤ b.1 ∧ a.2 ≤ b.2) l := by
  refine ⟨(0, 0) :: pathFrom (0, 0) rs, ?_, pathFrom_chain rs (0, 0)⟩
  rw [cigar_to_coords_eq s, parseRuns_findRuns h]

theorem c4_witness :
    parseRuns ("3=2X1I4=") = some [(3, '='), (2, 'X'), (1, 'I'), (4, '=')] ∧
    ∃ l, cigar_to_coords ("3=2X1I4=") = Except.ok l ∧
      List.Chain' (fun a b => a.1 ≤ b.1 ∧ a.2 ≤ b.2) l :=
  ⟨rfl, c4_monotone ("3=2X1I4=") [(3, '='), (2, 'X'), (1, 'I'), (4, '=')] rfl⟩

/-- C5: for every valid CIGAR string, `cigar_to_match_coords` returns
exactly one segment per `=` run and none for the other run types; the
per-coordinate extents of the segments are exactly the counts of the
`=` runs, in the order the `=` runs appear. -/
theorem c5_match_segments (s : String) (rs : List (Nat × Char))
    (h : parseRuns s = some rs) :
    ∃ segs, cigar_to_match_coords s = Except.ok segs ∧
      segs.map (fun seg => (seg.2.1 - seg.1.1, seg.2.2 - seg.1.2)) =
        (rs.filter (fun r => r.2 = '=')).map (fun r => (r.1, r.1)) := by
  have hv : ∀ r ∈ rs, isEditSym r.2 = true := by
    rw [← parseRuns_findRuns h]
    exact findRuns_valid s
  refine ⟨matchSegsFrom (0, 0) rs, ?_, matchSegs_map_filter rs (0, 0) hv⟩
  rw [cigar_to_match_coords_eq s, parseRuns_findRuns h]

theorem c5_witness :
    parseRuns ("2D3=") = some [(2, 'D'), (3, '=')] ∧
    ∃ segs, cigar_to_match_coords ("2D3=") = Except.ok segs ∧
      segs.map (fun seg => (seg.2.1 - seg.1.1, seg.2.2 - seg.1.2)) =
        (([(2, 'D'), (3, '=')] : List (Nat × Char)).filter
          (fun r => r.2 = '=')).map (fun r => (r.1, r.1)) :=
  ⟨rfl, c5_match_segments ("2D3=") [(2, 'D'), (3, '=')] rfl⟩

/-- C6: the window-anchor computation starts the anchor list with
`(0, 0)` and, scanning the path's vertices in order, appends a vertex
exactly when its read coordinate exceeds `last.read + (W - O)` or its
reference coordinate exceeds `last.reference + (W - O)` (the spec-worded
`anchorsSpec`); in particular for path `[(0,0),(10,10),(20,20)]` with
`W = 16`, `O = 4`, the anchors are `[(0,0),(20,20)]`. -/
theorem c6_anchor_rule :
    (∀ (path : List (Nat × Nat)) (W O : Int),
      window_starts path W O = anchorsSpec path W O) ∧
    window_starts [(0, 0), (10, 10), (20, 20)] 16 4 = [(0, 0), (20, 20)] :=
  ⟨window_starts_eq_anchorsSpec, by decide⟩

/-- C7: for every path produced by `cigar_to_coords` and all integers
`W > O ≥ 0`, the anchor sequence starts with `(0, 0)` and each anchor
after the first differs from the previous anchor in at least one
coordinate. -/
theorem c7_anchors_advance (s : String) (path : List (Nat × Nat)) (W O : Int)
    (hp : cigar_to_coords s = Except.ok path) (hO : 0 ≤ O) (hWO : O < W) :
    (window_starts path W O).head? = some (0, 0) ∧
    List.Chain' (fun a b => a ≠ b) (window_starts path W O) := by
  rw [window_starts_eq_anchorsSpec]
  exact ⟨rfl, anchorsSpecLoop_chain path W O (by omega) (0, 0)⟩

theorem c7_witness :
    cigar_to_coords ("3=") = Except.ok [(0, 0), (3, 3)] ∧
    (0 : Int) ≤ 0 ∧ (0 : Int) < 2 ∧
    (window_starts [(0, 0), (3, 3)] 2 0).head? = some (0, 0) ∧
    List.Chain' (fun a b => a ≠ b) (window_starts [(0, 0), (3, 3)] 2 0) :=
  ⟨rfl, by decide, by decide,
    c7_anchors_advance ("3=") [(0, 0), (3, 3)] 2 0 rfl (by decide) (by decide)⟩

/-- C8: for every anchor of the computed anchor sequence, the window
rectangle drawn for it is the closed polygon spanning from the anchor to
`(min(anchor.read + W, read_length), min(anchor.reference + W,
reference_length))`, i.e. clipped at the sequence boundaries. -/
theorem c8_window_clipped (path : List (Nat × Nat)) (W O : Int)
    (readLen refLen : Nat) (a : Nat × Nat)
    (ha : a ∈ window_starts path W O) :
    window_polygon a W readLen refLen =
      [((a.1 : Int), (a.2 : Int)),
       ((a.1 : Int), min ((a.2 : Int) + W) (refLen : Int)),
       (min ((a.1 : Int) + W) (readLen : Int), min ((a.2 : Int) + W) (refLen : Int)),
       (min ((a.1 : Int) + W) (readLen : Int), (a.2 : Int)),
       ((a.1 : Int), (a.2 : Int))] := rfl

theorem c8_witness :
    (0, 0) ∈ window_starts [] 16 4 ∧
    window_polygon (0, 0) 16 5 5 =
      [((0 : Int), (0 : Int)), ((0 : Int), (5 : Int)), ((5 : Int), (5 : Int)),
       ((5 : Int), (0 : Int)), ((0 : Int), (0 : Int))] :=
  ⟨by decide, c8_window_clipped [] 16 4 5 5 (0, 0) (by decide)⟩

/-- C9: for every finite path and all integers `W`, `O`, including the
degenerate configurations `W ≤ O`, the window-anchor computation is a
total function whose output has at most one anchor per scanned vertex
beyond the initial one (so the scan cannot loop forever), and the
result still begins with `(0, 0)`. -/
theorem c9_windowing_total (path : List (Nat × Nat)) (W O : Int) :
    (window_starts path W O).head? = some (0, 0) ∧
    (window_starts path W O).length ≤ path.length + 1 := by
  rw [window_starts_eq_anchorsSpec]
  refine ⟨rfl, ?_⟩
  simp only [anchorsSpec, List.length_cons]
  have h := anchorsSpecLoop_length path W O (0, 0)
  omega

/-- C10: whenever both decoders succeed on the same string, the match
segments are exactly the consecutive-vertex pairs `(path[r], path[r+1])`
of the runs `r` whose symbol is `=`, in order. -/
theorem c10_segments_on_path (s : String) (path : List (Nat × Nat))
    (segs : List ((Nat × Nat) × (Nat × Nat)))
    (hc : cigar_to_coords s = Except.ok path)
    (hm : cigar_to_match_coords s = Except.ok segs) :
    segs = ((path.zip path.tail).zip (findRuns s)).filterMap
      (fun x => if x.2.2 = '=' then some x.1 else none) := by
  rw [cigar_to_coords_eq s] at hc
  rw [cigar_to_match_coords_eq s] at hm
  injection hc with hc1
  injection hm with hm1
  rw [← hc1, ← hm1, List.tail_cons]
  exact matchSegs_zip (findRuns s) (0, 0)

theorem c10_witness :
    cigar_to_coords ("3=2X1I4=") =
      Except.ok [(0, 0), (3, 3), (5, 5), (6, 5), (10, 9)] ∧
    cigar_to_match_coords ("3=2X1I4=") =
      Except.ok [((0, 0), (3, 3)), ((6, 5), (10, 9))] ∧
    ([((0, 0), (3, 3)), ((6, 5), (10, 9))] : List ((Nat × Nat) × (Nat × Nat))) =
      ((([(0, 0), (3, 3), (5, 5), (6, 5), (10, 9)] : List (Nat × Nat)).zip
          ([(0, 0), (3, 3), (5, 5), (6, 5), (10, 9)] : List (Nat × Nat)).tail).zip
        (findRuns ("3=2X1I4="))).filterMap
          (fun x => if x.2.2 = '=' then some x.1 else none) :=
  ⟨rfl, rfl,
    c10_segments_on_path ("3=2X1I4=") [(0, 0), (3, 3), (5, 5), (6, 5), (10, 9)]
      [((0, 0), (3, 3)), ((6, 5), (10, 9))] rfl rfl⟩

end CigarInspector
